import Mathlib

/-!
Shallow embedding of `src/main.rs` (GenerationalGraph).

Modelling choices:
* A node's raw pointer (`*mut Node<T, G>`, cast to `usize` by `node_id`) is
  modelled as a `Nat` identity.  The arena never frees or moves nodes, so a
  pointer is a stable identity for the node it designates.
* A node's edge table `links : HashMap<*mut Node<T,G>, G>` is modelled as an
  association list `List (Nat × G)` with map semantics: lookup finds the first
  binding, insert overwrites the binding in place (or appends a fresh one),
  remove drops every binding of the key.  Tables produced by the code always
  have distinct keys, so these are exactly `HashMap`'s insert/remove/get.
* The memory holding all nodes of all graph instances is a `Heap T G`:
  an association list from node identity to `Node T G`.  Every operation of
  `NodeRef` dereferences `self.ptr` and mutates that node in place, which the
  embedding renders as `heapModify` at the node's identity.
* `with_link` closures (the bodies of `link_inner` / `link_inners`) may
  mutate the graph through the `&mut NodeRef` they receive and may also exit
  abnormally (Rust unwinding).  They are modelled as
  `Heap T G → Except (ε × Heap T G) (Heap T G)`: a normal return carries the
  heap after the body, an abnormal exit carries the abort payload together
  with the heap as it stood when the body unwound (memory is not rolled back
  by unwinding).
-/

namespace GenGraph

/-- A graph node: the caller's payload together with its edge table
(`Node<T, G>` in src/main.rs, lines 30-33). -/
structure Node (T G : Type) where
  value : T
  links : List (Nat × G)
deriving DecidableEq, Repr

/-- The memory of node records: association list from node identity
(pointer value) to node record. -/
abbrev Heap (T G : Type) := List (Nat × Node T G)

/-- The access token `GgToken` (src/main.rs, lines 25-27).  It carries no
data; only `GenerationalGraph::add` mentions it in its signature. -/
structure GgToken where
deriving DecidableEq, Repr

variable {T G : Type}

/-- Edge-table lookup: `HashMap::get` on the assoc-list model (first
binding of the key). -/
def tblGet (b : Nat) : List (Nat × G) → Option G
  | [] => none
  | (b', w) :: rest => if b' = b then some w else tblGet b rest

/-- Edge-table insert: `HashMap::insert` — overwrite the binding of the key
in place, or append a fresh binding. -/
def tblInsert (b : Nat) (w : G) : List (Nat × G) → List (Nat × G)
  | [] => [(b, w)]
  | (b', w') :: rest =>
      if b' = b then (b, w) :: rest else (b', w') :: tblInsert b w rest

/-- Edge-table remove: `HashMap::remove` — drop every binding of the key. -/
def tblRemove (b : Nat) (t : List (Nat × G)) : List (Nat × G) :=
  t.filter (fun pr => pr.1 ≠ b)

/-- Heap lookup: dereference a node pointer. -/
def heapGet (a : Nat) : Heap T G → Option (Node T G)
  | [] => none
  | (a', nd) :: rest => if a' = a then some nd else heapGet a rest

/-- Heap update: mutate the node designated by identity `a` in place. -/
def heapModify (a : Nat) (f : Node T G → Node T G) : Heap T G → Heap T G
  | [] => []
  | (a', nd) :: rest =>
      if a' = a then (a', f nd) :: rest else (a', nd) :: heapModify a f rest

/-- The set of node identities allocated in the heap. -/
def heapDom (h : Heap T G) : Finset Nat := (h.map Prod.fst).toFinset

/-- `NodeRef::node_id` (src/main.rs, lines 191-193): the pointer cast to
`usize`, i.e. the node's identity itself. -/
def node_id (a : Nat) : Nat := a

/-- `NodeRef::link` (src/main.rs, lines 104-106): insert an edge
`self → other` with the given cost into `self`'s edge table. -/
def link (a b : Nat) (w : G) (h : Heap T G) : Heap T G :=
  heapModify a (fun nd => { nd with links := tblInsert b w nd.links }) h

/-- `NodeRef::unlink` (src/main.rs, lines 110-112): remove the edge
`self → other` from `self`'s edge table. -/
def unlink (a b : Nat) (h : Heap T G) : Heap T G :=
  heapModify a (fun nd => { nd with links := tblRemove b nd.links }) h

/-- `NodeRef::link_outer` (src/main.rs, lines 116-118): same insertion as
`link`, with different lifetime brands on `other` in the Rust signature. -/
def link_outer (a b : Nat) (w : G) (h : Heap T G) : Heap T G :=
  heapModify a (fun nd => { nd with links := tblInsert b w nd.links }) h

/-- `NodeRef::unlink_outer` (src/main.rs, lines 122-124). -/
def unlink_outer (a b : Nat) (h : Heap T G) : Heap T G :=
  heapModify a (fun nd => { nd with links := tblRemove b nd.links }) h

/-- `NodeRef::link_self` (src/main.rs, lines 205-209): insert a self edge. -/
def link_self (a : Nat) (w : G) (h : Heap T G) : Heap T G :=
  heapModify a (fun nd => { nd with links := tblInsert a w nd.links }) h

/-- `NodeRef::unlink_self` (src/main.rs, lines 211-215). -/
def unlink_self (a : Nat) (h : Heap T G) : Heap T G :=
  heapModify a (fun nd => { nd with links := tblRemove a nd.links }) h

/-- `NodeRef::weight_of` (src/main.rs, lines 156-160): look up the weight of
the edge from `self` to the node whose identity is `dest`. -/
def weight_of (a dest : Nat) (h : Heap T G) : Option G :=
  (heapGet a h).bind (fun nd => tblGet dest nd.links)

/-- `NodeRef::link_inner` (src/main.rs, lines 129-136): insert the edge,
run the body with the edge active, then remove the edge.  The removal on
line 134 is straight-line code after the call to `with_link` on line 133:
it runs only when the body returns normally; when the body exits abnormally
the unwinding propagates past it (there is no drop guard), so the error
branch is returned as the body left it. -/
def link_inner {ε : Type} (a b : Nat) (w : G)
    (with_link : Heap T G → Except (ε × Heap T G) (Heap T G))
    (h : Heap T G) : Except (ε × Heap T G) (Heap T G) :=
  match with_link (link a b w h) with
  | .ok h2 => .ok (unlink a b h2)
  | .error e => .error e

/-- `NodeRef::link_inners` (src/main.rs, lines 138-154): if the target and
cost vectors have different lengths, return at once (no insertion, no body,
no error value — the function's return type is `()`); otherwise insert all
edges in index order (`costs_vec.remove(0)` pops the costs front to back,
pairing `others[i]` with `costs[i]`), run the body, then remove them. -/
def link_inners {ε : Type} (a : Nat) (others : List Nat) (costs : List G)
    (with_link : Heap T G → Except (ε × Heap T G) (Heap T G))
    (h : Heap T G) : Except (ε × Heap T G) (Heap T G) :=
  if others.length ≠ costs.length then .ok h
  else
    match with_link ((others.zip costs).foldl (fun hh pr => link a pr.1 pr.2 hh) h) with
    | .ok h2 => .ok (others.foldl (fun hh b => unlink a b hh) h2)
    | .error e => .error e

/-- `NodeRef::links_ids` (src/main.rs, lines 195-203): the identities of the
current outgoing edge targets. -/
def links_ids (a : Nat) (h : Heap T G) : List Nat :=
  match heapGet a h with
  | none => []
  | some nd => nd.links.map Prod.fst

/-- Loop of `NodeRef::bfs` (src/main.rs, lines 168-189): pop the frontier
head; skip it if already visited; otherwise apply `each` to the node's
value and the accumulator, mark the node visited, and enqueue all its
current edge targets at the frontier's tail.  The node behind an
unvisited frontier entry is dereferenced on lines 180-182; dereferencing
is only meaningful for allocated nodes, so the embedding's `none` branch
(which skips the entry) is unreachable whenever every frontier entry is an
allocated identity — the closedness hypotheses of the theorems below
guarantee exactly that.  Line 182 iterates the node's `HashMap` of edges
in an unspecified order; the embedding enqueues the targets in the edge
table's binding order, one admissible `HashMap` iteration order (no
theorem below depends on the choice).  Termination: each iteration either
visits an unvisited allocated node (strictly shrinking the set of
unvisited allocated identities) or shortens the frontier. -/
def bfsFrom (h : Heap T G) {R : Type} (each : T → R → R)
    (frontier : List Nat) (visited : Finset Nat) (supp : R) : R :=
  match frontier with
  | [] => supp
  | p :: rest =>
      if hv : p ∈ visited then bfsFrom h each rest visited supp
      else
        match hg : heapGet p h with
        | none => bfsFrom h each rest visited supp
        | some nd =>
            bfsFrom h each (rest ++ nd.links.map Prod.fst)
              (insert p visited) (each nd.value supp)
termination_by ((heapDom h \ visited).card, frontier.length)
decreasing_by
· exact Prod.Lex.right _ (by simp)
· exact Prod.Lex.right _ (by simp)
· exact Prod.Lex.left _ _ (by
    have hdom : p ∈ heapDom h := by
      have hstep : ∀ hh : Heap T G, heapGet p hh = some nd → p ∈ heapDom hh := by
        intro hh
        induction hh with
        | nil => intro hnone; simp [heapGet] at hnone
        | cons pr rest ih =>
            intro hcons
            obtain ⟨a', nd'⟩ := pr
            by_cases ha : a' = p
            · subst ha; simp [heapDom]
            · simp only [heapGet, ha, if_false] at hcons
              have hr := ih hcons
              simp only [heapDom, List.map_cons, List.toFinset_cons,
                Finset.mem_insert] at hr ⊢
              exact Or.inr hr
      exact hstep h hg
    have hmem : p ∈ heapDom h \ visited := Finset.mem_sdiff.mpr ⟨hdom, hv⟩
    have hins : heapDom h \ insert p visited = (heapDom h \ visited).erase p := by
      ext q
      simp only [Finset.mem_sdiff, Finset.mem_erase, Finset.mem_insert]
      tauto
    rw [hins]
    exact Finset.card_erase_lt_of_mem hmem)

/-- `NodeRef::bfs` (src/main.rs, lines 168-189): seed the frontier with
`self.ptr` (here the root identity `a`), start from `init` (the result of
the `init()` call on line 173) and run the loop. -/
def bfs (a : Nat) (h : Heap T G) {R : Type} (init : R)
    (each : T → R → R) : R :=
  bfsFrom h each [a] ∅ init

/-- Verification artifact (not in the source): the list of node identities
in the order `bfs` visits them, following the loop of src/main.rs lines
176-186 step for step. -/
def bfsVisitList (h : Heap T G) (frontier : List Nat)
    (visited : Finset Nat) : List Nat :=
  match frontier with
  | [] => []
  | p :: rest =>
      if hv : p ∈ visited then bfsVisitList h rest visited
      else
        match hg : heapGet p h with
        | none => bfsVisitList h rest visited
        | some nd =>
            p :: bfsVisitList h (rest ++ nd.links.map Prod.fst)
              (insert p visited)
termination_by ((heapDom h \ visited).card, frontier.length)
decreasing_by
· exact Prod.Lex.right _ (by simp)
· exact Prod.Lex.right _ (by simp)
· exact Prod.Lex.left _ _ (by
    have hdom : p ∈ heapDom h := by
      have hstep : ∀ hh : Heap T G, heapGet p hh = some nd → p ∈ heapDom hh := by
        intro hh
        induction hh with
        | nil => intro hnone; simp [heapGet] at hnone
        | cons pr rest ih =>
            intro hcons
            obtain ⟨a', nd'⟩ := pr
            by_cases ha : a' = p
            · subst ha; simp [heapDom]
            · simp only [heapGet, ha, if_false] at hcons
              have hr := ih hcons
              simp only [heapDom, List.map_cons, List.toFinset_cons,
                Finset.mem_insert] at hr ⊢
              exact Or.inr hr
      exact hstep h hg
    have hmem : p ∈ heapDom h \ visited := Finset.mem_sdiff.mpr ⟨hdom, hv⟩
    have hins : heapDom h \ insert p visited = (heapDom h \ visited).erase p := by
      ext q
      simp only [Finset.mem_sdiff, Finset.mem_erase, Finset.mem_insert]
      tauto
    rw [hins]
    exact Finset.card_erase_lt_of_mem hmem)

/-- Verification artifact: the visit order of `bfs` from root `a`. -/
def bfsOrder (h : Heap T G) (a : Nat) : List Nat :=
  bfsVisitList h [a] ∅

/-- Verification artifact: one visit's effect on the accumulator — what
line 180 of src/main.rs does to `supp` for the node with identity `p`. -/
def visitStep (h : Heap T G) {R : Type} (each : T → R → R)
    (s : R) (p : Nat) : R :=
  match heapGet p h with
  | none => s
  | some nd => each nd.value s

/-- The edge relation induced by the heap: `a` has an outgoing edge whose
target identity is `b`. -/
def hasEdge (h : Heap T G) (a b : Nat) : Prop :=
  ∃ nd, heapGet a h = some nd ∧ b ∈ nd.links.map Prod.fst

/-- Reachability along edges. -/
def Reaches (h : Heap T G) (a b : Nat) : Prop :=
  Relation.ReflTransGen (hasEdge h) a b

/-- A heap is closed when every edge target is an allocated node identity.
Every heap built by the code is closed: edges are inserted with `other.ptr`
for a live `NodeRef other`, and the arena never frees nodes. -/
def Closed (h : Heap T G) : Prop :=
  ∀ e ∈ h, ∀ pr ∈ e.2.links, pr.1 ∈ heapDom h

instance (h : Heap T G) : Decidable (Closed h) :=
  decidable_of_iff (∀ e ∈ h, ∀ pr ∈ e.2.links, pr.1 ∈ heapDom h) Iff.rfl

/-- A concrete node with no outgoing edges, for concrete evaluations. -/
def exNode (v : Nat) : Node Nat Nat := { value := v, links := [] }

/-- A concrete two-node heap (node identities 0 and 1, no edges). -/
def exHeap : Heap Nat Nat := [(0, exNode 10), (1, exNode 20)]

/-- A body for `link_inner` that exits abnormally at once (a Rust closure
that panics immediately), leaving the heap as it received it. -/
def panicBody : Heap Nat Nat → Except (Unit × Heap Nat Nat) (Heap Nat Nat) :=
  fun s => .error ((), s)

/-- The BFS scenario heap: three nodes — 1 (root, value 100), 2 (mid,
value 200), 3 (leaf, value 300) — with edges 1→2 (weight 5), 2→3
(weight 7) and the cycle edge 3→1 (weight 1). -/
def cycleHeap : Heap Nat Nat :=
  [(1, { value := 100, links := [(2, 5)] }),
   (2, { value := 200, links := [(3, 7)] }),
   (3, { value := 300, links := [(1, 1)] })]

/-! ### Edge-table lemmas -/

theorem tblGet_insert_self (b : Nat) (w : G) (t : List (Nat × G)) :
    tblGet b (tblInsert b w t) = some w := by
  induction t with
  | nil => simp [tblGet, tblInsert]
  | cons pr rest ih =>
      obtain ⟨b', w'⟩ := pr
      by_cases hb : b' = b <;> simp [tblGet, tblInsert, hb, ih]

theorem tblGet_insert_other (b b' : Nat) (w : G) (t : List (Nat × G))
    (hne : b' ≠ b) : tblGet b' (tblInsert b w t) = tblGet b' t := by
  have hne' : ¬ b = b' := fun hh => hne hh.symm
  induction t with
  | nil => simp [tblGet, tblInsert, hne']
  | cons pr rest ih =>
      obtain ⟨b'', w''⟩ := pr
      by_cases hb : b'' = b
      · subst hb
        simp [tblGet, tblInsert, hne']
      · by_cases hb' : b'' = b' <;>
          simp [tblGet, tblInsert, hb, hb', hne, hne', ih]

theorem tblRemove_cons (b b' : Nat) (w : G) (t : List (Nat × G)) :
    tblRemove b ((b', w) :: t) =
      if b' = b then tblRemove b t else (b', w) :: tblRemove b t := by
  by_cases hb : b' = b <;> simp [tblRemove, List.filter_cons, hb]

theorem tblGet_remove_self (b : Nat) (t : List (Nat × G)) :
    tblGet b (tblRemove b t) = none := by
  induction t with
  | nil => rfl
  | cons pr rest ih =>
      obtain ⟨b', w'⟩ := pr
      rw [tblRemove_cons]
      by_cases hb : b' = b
      · simp [hb, ih]
      · simp [tblGet, hb, ih]

theorem tblGet_remove_other (b b' : Nat) (t : List (Nat × G))
    (hne : b' ≠ b) : tblGet b' (tblRemove b t) = tblGet b' t := by
  have hne' : ¬ b = b' := fun hh => hne hh.symm
  induction t with
  | nil => rfl
  | cons pr rest ih =>
      obtain ⟨b'', w''⟩ := pr
      rw [tblRemove_cons]
      by_cases hb : b'' = b
      · subst hb
        simp [tblGet, hne', ih]
      · by_cases hb' : b'' = b' <;> simp [tblGet, hb, hb', hne, ih]

theorem tblRemove_of_get_none (b : Nat) (t : List (Nat × G))
    (habs : tblGet b t = none) : tblRemove b t = t := by
  induction t with
  | nil => rfl
  | cons pr rest ih =>
      obtain ⟨b', w'⟩ := pr
      rw [tblRemove_cons]
      by_cases hb : b' = b
      · simp [tblGet, hb] at habs
      · simp [tblGet, hb] at habs
        simp [hb, ih habs]

/-! ### Heap lemmas -/

theorem heapGet_modify_self (a : Nat) (f : Node T G → Node T G)
    (h : Heap T G) : heapGet a (heapModify a f h) = (heapGet a h).map f := by
  induction h with
  | nil => simp [heapGet, heapModify]
  | cons pr rest ih =>
      obtain ⟨a', nd⟩ := pr
      by_cases ha : a' = a <;> simp [heapGet, heapModify, ha, ih]

theorem heapGet_modify_other (a a' : Nat) (f : Node T G → Node T G)
    (h : Heap T G) (hne : a' ≠ a) :
    heapGet a' (heapModify a f h) = heapGet a' h := by
  have hne' : ¬ a = a' := fun hh => hne hh.symm
  induction h with
  | nil => simp [heapGet, heapModify]
  | cons pr rest ih =>
      obtain ⟨a'', nd⟩ := pr
      by_cases ha : a'' = a
      · subst ha
        simp [heapGet, heapModify, hne']
      · by_cases ha' : a'' = a' <;>
          simp [heapGet, heapModify, ha, ha', hne, hne', ih]

theorem heapModify_of_get_none (a : Nat) (f : Node T G → Node T G)
    (h : Heap T G) (habs : heapGet a h = none) : heapModify a f h = h := by
  induction h with
  | nil => simp [heapModify]
  | cons pr rest ih =>
      obtain ⟨a', nd⟩ := pr
      by_cases ha : a' = a
      · simp [heapGet, ha] at habs
      · simp [heapGet, ha] at habs
        simp [heapModify, ha, ih habs]

theorem heapModify_of_fix (a : Nat) (f : Node T G → Node T G) (h : Heap T G)
    (hfix : ∀ nd, heapGet a h = some nd → f nd = nd) : heapModify a f h = h := by
  induction h with
  | nil => simp [heapModify]
  | cons pr rest ih =>
      obtain ⟨a', nd⟩ := pr
      by_cases ha : a' = a
      · have : f nd = nd := hfix nd (by simp [heapGet, ha])
        simp [heapModify, ha, this]
      · have : ∀ nd', heapGet a rest = some nd' → f nd' = nd' := by
          intro nd' hnd'
          exact hfix nd' (by simp [heapGet, ha, hnd'])
        simp [heapModify, ha, ih this]

theorem heapDom_modify (a : Nat) (f : Node T G → Node T G) (h : Heap T G) :
    heapDom (heapModify a f h) = heapDom h := by
  induction h with
  | nil => simp [heapModify]
  | cons pr rest ih =>
      obtain ⟨a', nd⟩ := pr
      by_cases ha : a' = a
      · simp [heapDom, heapModify, ha]
      · simp only [heapDom, heapModify, ha, if_false, List.map_cons,
          List.toFinset_cons] at ih ⊢
        rw [ih]

theorem mem_heapDom_iff (a : Nat) (h : Heap T G) :
    a ∈ heapDom h ↔ ∃ nd, heapGet a h = some nd := by
  induction h with
  | nil => simp [heapDom, heapGet]
  | cons pr rest ih =>
      obtain ⟨a', nd⟩ := pr
      by_cases ha : a' = a
      · subst ha
        simp [heapDom, heapGet]
      · have ha' : ¬ a = a' := fun hh => ha hh.symm
        simp [heapDom, heapGet, ha, ha'] at ih ⊢
        exact ih

/-! ### Operation-level lemmas -/

theorem weight_of_link (a b : Nat) (w : G) (h : Heap T G)
    (ha : a ∈ heapDom h) : weight_of a b (link a b w h) = some w := by
  obtain ⟨nd, hnd⟩ := (mem_heapDom_iff a h).mp ha
  simp [weight_of, link, heapGet_modify_self, hnd, tblGet_insert_self]

theorem weight_of_unlink (a b : Nat) (h : Heap T G) :
    weight_of a b (unlink a b h) = none := by
  cases hnd : heapGet a h with
  | none => simp [weight_of, unlink, heapGet_modify_self, hnd]
  | some nd =>
      simp [weight_of, unlink, heapGet_modify_self, hnd, tblGet_remove_self]

theorem weight_of_link_ne (a b b' : Nat) (w : G) (h : Heap T G)
    (hne : b' ≠ b) : weight_of a b' (link a b w h) = weight_of a b' h := by
  cases hnd : heapGet a h with
  | none => simp [weight_of, link, heapGet_modify_self, hnd]
  | some nd =>
      simp [weight_of, link, heapGet_modify_self, hnd,
        tblGet_insert_other _ _ _ _ hne]

theorem weight_of_unlink_ne (a b b' : Nat) (h : Heap T G)
    (hne : b' ≠ b) : weight_of a b' (unlink a b h) = weight_of a b' h := by
  cases hnd : heapGet a h with
  | none => simp [weight_of, unlink, heapGet_modify_self, hnd]
  | some nd =>
      simp [weight_of, unlink, heapGet_modify_self, hnd,
        tblGet_remove_other _ _ _ hne]

theorem unlink_of_absent (a b : Nat) (h : Heap T G)
    (habs : weight_of a b h = none) : unlink a b h = h := by
  cases hnd : heapGet a h with
  | none => exact heapModify_of_get_none _ _ _ hnd
  | some nd =>
      apply heapModify_of_fix
      intro nd' hnd'
      rw [hnd] at hnd'
      cases hnd'
      have htbl : tblGet b nd.links = none := by
        simpa [weight_of, hnd] using habs
      simp [tblRemove_of_get_none _ _ htbl]

theorem heapDom_link (a b : Nat) (w : G) (h : Heap T G) :
    heapDom (link a b w h) = heapDom h := heapDom_modify _ _ _

theorem heapDom_unlink (a b : Nat) (h : Heap T G) :
    heapDom (unlink a b h) = heapDom h := heapDom_modify _ _ _

theorem heapGet_mem (a : Nat) (nd : Node T G) (h : Heap T G)
    (hg : heapGet a h = some nd) : (a, nd) ∈ h := by
  induction h with
  | nil => simp [heapGet] at hg
  | cons pr rest ih =>
      obtain ⟨a', nd'⟩ := pr
      by_cases ha : a' = a
      · subst ha
        simp only [heapGet, if_pos rfl] at hg
        cases hg
        exact List.mem_cons_self _ _
      · simp only [heapGet, ha, if_false] at hg
        exact List.mem_cons_of_mem _ (ih hg)

/-! ### BFS lemmas -/

theorem hasEdge_target_mem (h : Heap T G) (hc : Closed h) (a b : Nat)
    (he : hasEdge h a b) : b ∈ heapDom h := by
  obtain ⟨nd, hg, hb⟩ := he
  obtain ⟨pr, hpr, hfst⟩ := List.mem_map.mp hb
  exact hfst ▸ hc (a, nd) (heapGet_mem a nd h hg) pr hpr

theorem reaches_target_mem (h : Heap T G) (hc : Closed h) (a b : Nat)
    (ha : a ∈ heapDom h) (hr : Reaches h a b) : b ∈ heapDom h := by
  induction hr with
  | refl => exact ha
  | tail _ hstep ih => exact hasEdge_target_mem h hc _ _ hstep

theorem reaches_in_closed_set (h : Heap T G) (S : Finset Nat)
    (hS : ∀ q ∈ S, ∀ b, hasEdge h q b → b ∈ S) (r p : Nat)
    (hr : r ∈ S) (hrp : Reaches h r p) : p ∈ S := by
  induction hrp with
  | refl => exact hr
  | tail _ hstep ih => exact hS _ ih _ hstep

theorem bfsVisitList_nil (h : Heap T G) (visited : Finset Nat) :
    bfsVisitList h [] visited = [] := by
  conv_lhs => rw [bfsVisitList.eq_def]

theorem bfsVisitList_visited (h : Heap T G) (p : Nat) (rest : List Nat)
    (visited : Finset Nat) (hv : p ∈ visited) :
    bfsVisitList h (p :: rest) visited = bfsVisitList h rest visited := by
  conv_lhs => rw [bfsVisitList.eq_def]
  dsimp only
  rw [dif_pos hv]

theorem bfsVisitList_unvisited_none (h : Heap T G) (p : Nat)
    (rest : List Nat) (visited : Finset Nat) (hv : p ∉ visited)
    (hg : heapGet p h = none) :
    bfsVisitList h (p :: rest) visited = bfsVisitList h rest visited := by
  conv_lhs => rw [bfsVisitList.eq_def]
  dsimp only
  rw [dif_neg hv]
  split
  · rfl
  · rename_i nd heq
    rw [hg] at heq
    cases heq

theorem bfsVisitList_unvisited_some (h : Heap T G) (p : Nat) (nd : Node T G)
    (rest : List Nat) (visited : Finset Nat) (hv : p ∉ visited)
    (hg : heapGet p h = some nd) :
    bfsVisitList h (p :: rest) visited
      = p :: bfsVisitList h (rest ++ nd.links.map Prod.fst)
          (insert p visited) := by
  conv_lhs => rw [bfsVisitList.eq_def]
  dsimp only
  rw [dif_neg hv]
  split
  · rename_i heq
    rw [hg] at heq
    cases heq
  · rename_i nd' heq
    rw [hg] at heq
    cases heq
    rfl

theorem bfsFrom_nil {R : Type} (h : Heap T G) (each : T → R → R)
    (visited : Finset Nat) (supp : R) :
    bfsFrom h each [] visited supp = supp := by
  conv_lhs => rw [bfsFrom.eq_def]

theorem bfsFrom_visited {R : Type} (h : Heap T G) (each : T → R → R)
    (p : Nat) (rest : List Nat) (visited : Finset Nat) (supp : R)
    (hv : p ∈ visited) :
    bfsFrom h each (p :: rest) visited supp
      = bfsFrom h each rest visited supp := by
  conv_lhs => rw [bfsFrom.eq_def]
  dsimp only
  rw [dif_pos hv]

theorem bfsFrom_unvisited_none {R : Type} (h : Heap T G) (each : T → R → R)
    (p : Nat) (rest : List Nat) (visited : Finset Nat) (supp : R)
    (hv : p ∉ visited) (hg : heapGet p h = none) :
    bfsFrom h each (p :: rest) visited supp
      = bfsFrom h each rest visited supp := by
  conv_lhs => rw [bfsFrom.eq_def]
  dsimp only
  rw [dif_neg hv]
  split
  · rfl
  · rename_i nd heq
    rw [hg] at heq
    cases heq

theorem bfsFrom_unvisited_some {R : Type} (h : Heap T G) (each : T → R → R)
    (p : Nat) (nd : Node T G) (rest : List Nat) (visited : Finset Nat)
    (supp : R) (hv : p ∉ visited) (hg : heapGet p h = some nd) :
    bfsFrom h each (p :: rest) visited supp
      = bfsFrom h each (rest ++ nd.links.map Prod.fst) (insert p visited)
          (each nd.value supp) := by
  conv_lhs => rw [bfsFrom.eq_def]
  dsimp only
  rw [dif_neg hv]
  split
  · rename_i heq
    rw [hg] at heq
    cases heq
  · rename_i nd' heq
    rw [hg] at heq
    cases heq
    rfl

theorem bfsFrom_eq_fold {R : Type} (h : Heap T G) (each : T → R → R)
    (frontier : List Nat) (visited : Finset Nat) :
    ∀ supp : R, bfsFrom h each frontier visited supp
      = (bfsVisitList h frontier visited).foldl (visitStep h each) supp := by
  induction frontier, visited using bfsVisitList.induct h with
  | case1 visited =>
      intro supp
      rw [bfsVisitList_nil, bfsFrom_nil]
      rfl
  | case2 visited p rest hv ih =>
      intro supp
      rw [bfsVisitList_visited h p rest visited hv,
        bfsFrom_visited h each p rest visited supp hv]
      exact ih supp
  | case3 visited p rest hv hg ih =>
      intro supp
      rw [bfsVisitList_unvisited_none h p rest visited hv hg,
        bfsFrom_unvisited_none h each p rest visited supp hv hg]
      exact ih supp
  | case4 visited p rest hv nd hg ih =>
      intro supp
      rw [bfsVisitList_unvisited_some h p nd rest visited hv hg,
        bfsFrom_unvisited_some h each p nd rest visited supp hv hg,
        List.foldl_cons]
      have hstep : visitStep h each supp p = each nd.value supp := by
        simp [visitStep, hg]
      rw [hstep]
      exact ih (each nd.value supp)

theorem bfsVisitList_nodup_fresh (h : Heap T G) (frontier : List Nat)
    (visited : Finset Nat) :
    (bfsVisitList h frontier visited).Nodup
    ∧ ∀ p ∈ bfsVisitList h frontier visited, p ∉ visited := by
  induction frontier, visited using bfsVisitList.induct h with
  | case1 visited => simp [bfsVisitList_nil]
  | case2 visited p rest hv ih => rw [bfsVisitList_visited h p rest visited hv]; exact ih
  | case3 visited p rest hv hg ih =>
      rw [bfsVisitList_unvisited_none h p rest visited hv hg]; exact ih
  | case4 visited p rest hv nd hg ih =>
      rw [bfsVisitList_unvisited_some h p nd rest visited hv hg]
      obtain ⟨ihn, ihf⟩ := ih
      refine ⟨List.nodup_cons.mpr ⟨?_, ihn⟩, ?_⟩
      · intro hmem
        exact ihf p hmem (Finset.mem_insert_self p visited)
      · intro q hq
        rcases List.mem_cons.mp hq with hq | hq
        · subst hq; exact hv
        · intro hqv
          exact ihf q hq (Finset.mem_insert_of_mem hqv)

theorem bfsVisitList_sound (h : Heap T G) (frontier : List Nat)
    (visited : Finset Nat) :
    ∀ p ∈ bfsVisitList h frontier visited, ∃ r ∈ frontier, Reaches h r p := by
  induction frontier, visited using bfsVisitList.induct h with
  | case1 visited => simp [bfsVisitList_nil]
  | case2 visited p rest hv ih =>
      rw [bfsVisitList_visited h p rest visited hv]
      intro q hq
      obtain ⟨r, hr, hrq⟩ := ih q hq
      exact ⟨r, List.mem_cons_of_mem _ hr, hrq⟩
  | case3 visited p rest hv hg ih =>
      rw [bfsVisitList_unvisited_none h p rest visited hv hg]
      intro q hq
      obtain ⟨r, hr, hrq⟩ := ih q hq
      exact ⟨r, List.mem_cons_of_mem _ hr, hrq⟩
  | case4 visited p rest hv nd hg ih =>
      rw [bfsVisitList_unvisited_some h p nd rest visited hv hg]
      intro q hq
      rcases List.mem_cons.mp hq with hq | hq
      · subst hq
        exact ⟨q, List.mem_cons_self _ _, Relation.ReflTransGen.refl⟩
      · obtain ⟨r, hr, hrq⟩ := ih q hq
        rcases List.mem_append.mp hr with hr | hr
        · exact ⟨r, List.mem_cons_of_mem _ hr, hrq⟩
        · refine ⟨p, List.mem_cons_self _ _, ?_⟩
          exact Relation.ReflTransGen.head ⟨nd, hg, hr⟩ hrq

theorem bfsVisitList_complete (h : Heap T G) (hc : Closed h)
    (frontier : List Nat) (visited : Finset Nat) :
    (∀ q ∈ visited, ∀ b, hasEdge h q b → b ∈ visited ∨ b ∈ frontier) →
    (∀ q ∈ frontier, q ∈ heapDom h) →
    ∀ r p, (r ∈ frontier ∨ r ∈ visited) → Reaches h r p →
      p ∈ visited ∨ p ∈ bfsVisitList h frontier visited := by
  induction frontier, visited using bfsVisitList.induct h with
  | case1 visited =>
      intro hinv _ r p hr hrp
      rcases hr with hr | hr
      · cases hr
      · left
        refine reaches_in_closed_set h visited ?_ r p hr hrp
        intro q hq b hb
        rcases hinv q hq b hb with hbv | hbf
        · exact hbv
        · cases hbf
  | case2 visited p rest hv ih =>
      intro hinv hfr r q hr hrq
      rw [bfsVisitList_visited h p rest visited hv]
      refine ih ?_ ?_ r q ?_ hrq
      · intro q' hq' b hb
        rcases hinv q' hq' b hb with hbv | hbf
        · exact Or.inl hbv
        · rcases List.mem_cons.mp hbf with hbp | hbr
          · exact Or.inl (hbp ▸ hv)
          · exact Or.inr hbr
      · intro q' hq'
        exact hfr q' (List.mem_cons_of_mem _ hq')
      · rcases hr with hr | hr
        · rcases List.mem_cons.mp hr with hrp | hrr
          · exact Or.inr (hrp ▸ hv)
          · exact Or.inl hrr
        · exact Or.inr hr
  | case3 visited p rest hv hg ih =>
      intro hinv hfr r q hr hrq
      exfalso
      have hp : p ∈ heapDom h := hfr p (List.mem_cons_self _ _)
      obtain ⟨nd, hnd⟩ := (mem_heapDom_iff p h).mp hp
      rw [hg] at hnd
      cases hnd
  | case4 visited p rest hv nd hg ih =>
      intro hinv hfr r q hr hrq
      rw [bfsVisitList_unvisited_some h p nd rest visited hv hg]
      have hres : q ∈ insert p visited
          ∨ q ∈ bfsVisitList h (rest ++ nd.links.map Prod.fst)
              (insert p visited) := by
        refine ih ?_ ?_ r q ?_ hrq
        · intro q' hq' b hb
          rcases Finset.mem_insert.mp hq' with hq' | hq'
          · subst hq'
            obtain ⟨nd', hnd', hb'⟩ := hb
            rw [hg] at hnd'
            cases hnd'
            exact Or.inr (List.mem_append.mpr (Or.inr hb'))
          · rcases hinv q' hq' b hb with hbv | hbf
            · exact Or.inl (Finset.mem_insert_of_mem hbv)
            · rcases List.mem_cons.mp hbf with hbp | hbr
              · exact Or.inl (hbp ▸ Finset.mem_insert_self p visited)
              · exact Or.inr (List.mem_append.mpr (Or.inl hbr))
        · intro q' hq'
          rcases List.mem_append.mp hq' with hq' | hq'
          · exact hfr q' (List.mem_cons_of_mem _ hq')
          · exact hasEdge_target_mem h hc p q' ⟨nd, hg, hq'⟩
        · rcases hr with hr | hr
          · rcases List.mem_cons.mp hr with hrp | hrr
            · exact Or.inr (hrp ▸ Finset.mem_insert_self p visited)
            · exact Or.inl (List.mem_append.mpr (Or.inl hrr))
          · exact Or.inr (Finset.mem_insert_of_mem hr)
      rcases hres with hres | hres
      · rcases Finset.mem_insert.mp hres with hqp | hqv
        · exact Or.inr (hqp ▸ List.mem_cons_self _ _)
        · exact Or.inl hqv
      · exact Or.inr (List.mem_cons_of_mem _ hres)

theorem bfsOrder_mem_iff (h : Heap T G) (root : Nat) (hc : Closed h)
    (hr : root ∈ heapDom h) :
    ∀ p, p ∈ bfsOrder h root ↔ Reaches h root p := by
  intro p
  constructor
  · intro hp
    obtain ⟨r, hrmem, hrp⟩ := bfsVisitList_sound h [root] ∅ p hp
    rcases List.mem_cons.mp hrmem with hr1 | hr1
    · exact hr1 ▸ hrp
    · cases hr1
  · intro hrp
    have := bfsVisitList_complete h hc [root] ∅
      (by intro q hq; cases hq)
      (by intro q hq
          rcases List.mem_cons.mp hq with hq | hq
          · exact hq ▸ hr
          · cases hq)
      root p (Or.inl (List.mem_cons_self _ _)) hrp
    rcases this with hp | hp
    · cases hp
    · exact hp

theorem tblInsert_mem (k : Nat) (w : G) (t : List (Nat × G)) (pr : Nat × G)
    (hpr : pr ∈ tblInsert k w t) : pr.1 = k ∨ pr ∈ t := by
  induction t with
  | nil =>
      simp only [tblInsert, List.mem_singleton] at hpr
      exact Or.inl (by rw [hpr])
  | cons hd rest ih =>
      obtain ⟨b', w'⟩ := hd
      by_cases hb : b' = k
      · subst hb
        simp only [tblInsert, if_pos rfl] at hpr
        rcases List.mem_cons.mp hpr with h1 | h1
        · exact Or.inl (by rw [h1])
        · exact Or.inr (List.mem_cons_of_mem _ h1)
      · simp only [tblInsert, hb, if_false] at hpr
        rcases List.mem_cons.mp hpr with h1 | h1
        · exact Or.inr (h1 ▸ List.mem_cons_self _ _)
        · rcases ih h1 with h2 | h2
          · exact Or.inl h2
          · exact Or.inr (List.mem_cons_of_mem _ h2)

theorem heapModify_mem (a : Nat) (f : Node T G → Node T G) (h : Heap T G) :
    ∀ e ∈ heapModify a f h, e ∈ h ∨ ∃ nd, (a, nd) ∈ h ∧ e = (a, f nd) := by
  induction h with
  | nil => intro e he; simp [heapModify] at he
  | cons hd rest ih =>
      obtain ⟨a', nd'⟩ := hd
      intro e he
      by_cases ha : a' = a
      · subst ha
        simp only [heapModify, if_pos rfl] at he
        rcases List.mem_cons.mp he with h1 | h1
        · exact Or.inr ⟨nd', List.mem_cons_self _ _, h1⟩
        · exact Or.inl (List.mem_cons_of_mem _ h1)
      · simp only [heapModify, ha, if_false] at he
        rcases List.mem_cons.mp he with h1 | h1
        · exact Or.inl (h1 ▸ List.mem_cons_self _ _)
        · rcases ih e h1 with h2 | ⟨nd, hnd, he2⟩
          · exact Or.inl (List.mem_cons_of_mem _ h2)
          · exact Or.inr ⟨nd, List.mem_cons_of_mem _ hnd, he2⟩

theorem heapDom_link_self (a : Nat) (w : G) (h : Heap T G) :
    heapDom (link_self a w h) = heapDom h := heapDom_modify _ _ _

theorem closed_link_self (h : Heap T G) (n : Nat) (w : G) (hc : Closed h)
    (hn : n ∈ heapDom h) : Closed (link_self n w h) := by
  intro e he pr hpr
  rw [heapDom_link_self]
  rcases heapModify_mem n
      (fun nd => { nd with links := tblInsert n w nd.links }) h e he with
    hmem | ⟨nd, hnd, rfl⟩
  · exact hc e hmem pr hpr
  · rcases tblInsert_mem n w nd.links pr hpr with h1 | h2
    · exact h1 ▸ hn
    · exact hc (n, nd) hnd pr h2

/-! ### Claim theorems -/

/-- C6: for same-instance nodes `a`, `b` and weight `w`: after `link a b w`,
`weight_of` on `a` with `b`'s identity returns `w`; after a subsequent
`unlink a b`, it returns none; and `unlink` on an absent edge is a no-op
that leaves the edge table unchanged (the operation has no error channel,
so no error is signalled). -/
theorem link_unlink_round_trip (a b : Nat) (w : G) (h : Heap T G)
    (ha : a ∈ heapDom h) :
    weight_of a (node_id b) (link a b w h) = some w
    ∧ weight_of a (node_id b) (unlink a b (link a b w h)) = none
    ∧ (weight_of a (node_id b) h = none → unlink a b h = h) :=
  ⟨weight_of_link a b w h ha,
   weight_of_unlink a b (link a b w h),
   fun habs => unlink_of_absent a b h habs⟩

/-- Witness for C6 at a concrete heap. -/
theorem link_unlink_round_trip_witness :
    (0 : Nat) ∈ heapDom exHeap
    ∧ (weight_of 0 (node_id 1) (link 0 1 5 exHeap) = some 5
       ∧ weight_of 0 (node_id 1) (unlink 0 1 (link 0 1 5 exHeap)) = none
       ∧ (weight_of 0 (node_id 1) exHeap = none → unlink 0 1 exHeap = exHeap)) :=
  ⟨by decide, link_unlink_round_trip 0 1 5 exHeap (by decide)⟩

/-- C8: re-linking an existing edge overwrites the weight (last write wins):
`HashMap::insert` replaces the old binding, for `link`, `link_outer` and
`link_self` alike. -/
theorem link_overwrites (a b : Nat) (w1 w2 : G) (h : Heap T G)
    (ha : a ∈ heapDom h) :
    weight_of a (node_id b) (link a b w2 (link a b w1 h)) = some w2
    ∧ weight_of a (node_id b) (link_outer a b w2 (link_outer a b w1 h)) = some w2
    ∧ weight_of a (node_id a) (link_self a w2 (link_self a w1 h)) = some w2 := by
  have ha1 : a ∈ heapDom (link a b w1 h) := by rwa [heapDom_link]
  have hao : a ∈ heapDom (link_outer a b w1 h) := by
    show a ∈ heapDom (link a b w1 h)
    rwa [heapDom_link]
  have has : a ∈ heapDom (link_self a w1 h) := by
    show a ∈ heapDom (link a a w1 h)
    rwa [heapDom_link]
  exact ⟨weight_of_link a b w2 _ ha1,
         weight_of_link a b w2 (link_outer a b w1 h) hao,
         weight_of_link a a w2 (link_self a w1 h) has⟩

/-- Witness for C8 at a concrete heap. -/
theorem link_overwrites_witness :
    (0 : Nat) ∈ heapDom exHeap
    ∧ (weight_of 0 (node_id 1) (link 0 1 9 (link 0 1 5 exHeap)) = some 9
       ∧ weight_of 0 (node_id 1) (link_outer 0 1 9 (link_outer 0 1 5 exHeap)) = some 9
       ∧ weight_of 0 (node_id 0) (link_self 0 9 (link_self 0 5 exHeap)) = some 9) :=
  ⟨by decide, link_overwrites 0 1 5 9 exHeap (by decide)⟩

/-- C9: when an edge `a → b` already exists with some weight `v`, a
`link_inner` call on `a` targeting `b` that returns normally leaves
`weight_of` at none: the pre-existing persistent edge is destroyed by the
final removal, not restored to `v`. -/
theorem link_inner_destroys_prior_edge {ε : Type} (a b : Nat) (v w : G)
    (body : Heap T G → Except (ε × Heap T G) (Heap T G)) (h h2 : Heap T G)
    (hpre : weight_of a (node_id b) h = some v)
    (hok : link_inner a b w body h = .ok h2) :
    weight_of a (node_id b) h2 = none := by
  unfold link_inner at hok
  cases hbody : body (link a b w h) with
  | ok h' =>
      rw [hbody] at hok
      cases hok
      exact weight_of_unlink a b h'
  | error e => rw [hbody] at hok; cases hok

/-- Witness for C9 at a concrete heap: the edge `0 → 1` pre-exists with
weight 7, the body returns normally, and afterwards the edge is gone. -/
theorem link_inner_destroys_prior_edge_witness :
    weight_of 0 (node_id 1) (link 0 1 7 exHeap) = some 7
    ∧ link_inner (ε := Unit) 0 1 9 Except.ok (link 0 1 7 exHeap)
        = .ok (unlink 0 1 (link 0 1 9 (link 0 1 7 exHeap)))
    ∧ weight_of 0 (node_id 1)
        (unlink 0 1 (link 0 1 9 (link 0 1 7 exHeap))) = none :=
  ⟨by decide, rfl,
   link_inner_destroys_prior_edge (ε := Unit) 0 1 7 9 Except.ok
     (link 0 1 7 exHeap)
     (unlink 0 1 (link 0 1 9 (link 0 1 7 exHeap))) (by decide) rfl⟩

/-- C7: nested `link_inner` calls on the same source release LIFO.  With the
outer edge `a → b1` active (the state inside the outer body), an inner
`link_inner` call targeting `b2` returns a state in which the inner edge is
already removed while the outer edge is still present with its weight; the
full nested call then removes the outer edge as well on its own return. -/
theorem link_inner_nested_lifo {ε : Type} (a b1 b2 : Nat) (w1 w2 : G)
    (h : Heap T G) (ha : a ∈ heapDom h) (hne : b2 ≠ b1) :
    (∃ h2, link_inner (ε := ε) a b2 w2 Except.ok (link a b1 w1 h) = .ok h2
       ∧ weight_of a (node_id b2) h2 = none
       ∧ weight_of a (node_id b1) h2 = some w1)
    ∧ (∃ hf, link_inner (ε := ε) a b1 w1
          (fun s => link_inner a b2 w2 Except.ok s) h = .ok hf
       ∧ weight_of a (node_id b1) hf = none
       ∧ weight_of a (node_id b2) hf = none) := by
  simp only [node_id]
  constructor
  · refine ⟨unlink a b2 (link a b2 w2 (link a b1 w1 h)), rfl, ?_, ?_⟩
    · exact weight_of_unlink a b2 _
    · rw [weight_of_unlink_ne _ _ _ _ (fun hh => hne hh.symm),
          weight_of_link_ne _ _ _ _ _ (fun hh => hne hh.symm)]
      exact weight_of_link a b1 w1 h ha
  · refine ⟨unlink a b1 (unlink a b2 (link a b2 w2 (link a b1 w1 h))),
      rfl, ?_, ?_⟩
    · exact weight_of_unlink a b1 _
    · rw [weight_of_unlink_ne _ _ _ _ hne]
      exact weight_of_unlink a b2 _

/-- Witness for C7 at a concrete heap. -/
theorem link_inner_nested_lifo_witness :
    (0 : Nat) ∈ heapDom exHeap
    ∧ (2 : Nat) ≠ 1
    ∧ ((∃ h2, link_inner (ε := Unit) 0 2 8 Except.ok (link 0 1 5 exHeap) = .ok h2
         ∧ weight_of 0 (node_id 2) h2 = none
         ∧ weight_of 0 (node_id 1) h2 = some 5)
       ∧ (∃ hf, link_inner (ε := Unit) 0 1 5
             (fun s => link_inner 0 2 8 Except.ok s) exHeap = .ok hf
         ∧ weight_of 0 (node_id 1) hf = none
         ∧ weight_of 0 (node_id 2) hf = none)) :=
  ⟨by decide, by decide,
   link_inner_nested_lifo 0 1 2 5 8 exHeap (by decide) (by decide)⟩

/-- C10: when the target and cost vectors of `link_inners` differ in
length, the call returns at once with the heap unchanged and a normal
result, for every body: the body is never invoked, so none of its effects
(not even an abnormal exit) can be observed. -/
theorem link_inners_mismatch_skips_body {ε : Type} (a : Nat)
    (others : List Nat) (costs : List G)
    (body : Heap T G → Except (ε × Heap T G) (Heap T G)) (h : Heap T G)
    (hlen : others.length ≠ costs.length) :
    link_inners a others costs body h = .ok h := by
  unfold link_inners
  simp [hlen]

/-- Witness for C10: a mismatched call whose body would exit abnormally
still returns the unchanged heap normally. -/
theorem link_inners_mismatch_skips_body_witness :
    ([1] : List Nat).length ≠ ([] : List Nat).length
    ∧ link_inners 0 [1] ([] : List Nat) panicBody exHeap = .ok exHeap :=
  ⟨by decide,
   link_inners_mismatch_skips_body 0 [1] [] panicBody exHeap (by decide)⟩

/-- C2 (divergence exhibit): `link_inners` with mismatched target/cost
vectors performs no insertion — the source's edge table is untouched — but
it signals nothing: the call returns normally (`.ok`), not with an
`ArityMismatch` error; indeed the source function's return type `()` has no
error channel at all (src/main.rs lines 141-143 bail out with a bare
`return;`). -/
theorem link_inners_mismatch_silent :
    link_inners (ε := Unit) 0 [1] ([] : List Nat) panicBody exHeap = .ok exHeap
    ∧ weight_of 0 (node_id 1) exHeap = none := by
  constructor
  · rfl
  · decide

/-- C1 (divergence exhibit): when the body of `link_inner` exits
abnormally, the removal on src/main.rs line 134 is never reached: the
failure propagates with the temporary edge still in place — `weight_of` on
the source with the target's identity still returns the weight, not none. -/
theorem link_inner_panic_keeps_edge :
    link_inner 0 1 5 panicBody exHeap = .error ((), link 0 1 5 exHeap)
    ∧ weight_of 0 (node_id 1) (link 0 1 5 exHeap) = some 5 := by
  constructor
  · rfl
  · decide

/-- C4: on a closed heap, `bfs` from a root computes exactly the fold of
the combiner over the breadth-first visit order, a duplicate-free list
whose members are exactly the nodes reachable from the root — so the
combiner is invoked exactly once per reachable node (even when a node is
enqueued several times before its first visit, the visited check on
src/main.rs line 179 skips every later occurrence), and the returned
value is the accumulator produced by the initializer and folded by the
combiner over exactly those nodes. -/
theorem bfs_visits_each_reachable_once {R : Type} (h : Heap T G)
    (root : Nat) (init : R) (each : T → R → R)
    (hc : Closed h) (hr : root ∈ heapDom h) :
    bfs root h init each = (bfsOrder h root).foldl (visitStep h each) init
    ∧ (bfsOrder h root).Nodup
    ∧ ∀ p, p ∈ bfsOrder h root ↔ Reaches h root p :=
  ⟨bfsFrom_eq_fold h each [root] ∅ init,
   (bfsVisitList_nodup_fresh h [root] ∅).1,
   bfsOrder_mem_iff h root hc hr⟩

/-- Witness for C4 on the spec's three-node cycle scenario. -/
theorem bfs_visits_each_reachable_once_witness :
    Closed cycleHeap ∧ (1 : Nat) ∈ heapDom cycleHeap
    ∧ (bfs 1 cycleHeap (0 : Nat) (fun v s => s + v)
         = (bfsOrder cycleHeap 1).foldl
             (visitStep cycleHeap (fun v s => s + v)) 0
       ∧ (bfsOrder cycleHeap 1).Nodup
       ∧ ∀ p, p ∈ bfsOrder cycleHeap 1 ↔ Reaches cycleHeap 1 p) :=
  ⟨by decide, by decide,
   bfs_visits_each_reachable_once cycleHeap 1 0 (fun v s => s + v)
     (by decide) (by decide)⟩

/-- C5: `bfs` is total — it is defined by well-founded recursion on the
number of unvisited allocated nodes (finite, since a heap is a finite
list) paired with the frontier length, so it terminates on every closed
heap, cycles and self-edges included.  In particular after `link_self` on
node `n`, the traversal from `n` visits `n` exactly once: `n` occurs
exactly once in the visit order, which is duplicate-free. -/
theorem bfs_self_loop_visits_once (h : Heap T G) (n : Nat) (w : G)
    (hc : Closed h) (hn : n ∈ heapDom h) :
    (bfsOrder (link_self n w h) n).count n = 1
    ∧ (bfsOrder (link_self n w h) n).Nodup := by
  have hc' : Closed (link_self n w h) := closed_link_self h n w hc hn
  have hn' : n ∈ heapDom (link_self n w h) := by
    rw [heapDom_link_self]
    exact hn
  have hnodup := (bfsVisitList_nodup_fresh (link_self n w h) [n] ∅).1
  have hmem : n ∈ bfsOrder (link_self n w h) n :=
    (bfsOrder_mem_iff (link_self n w h) n hc' hn' n).mpr
      Relation.ReflTransGen.refl
  exact ⟨List.count_eq_one_of_mem hnodup hmem, hnodup⟩

/-- Witness for C5: a self loop added to the cycle heap's root. -/
theorem bfs_self_loop_visits_once_witness :
    Closed cycleHeap ∧ (1 : Nat) ∈ heapDom cycleHeap
    ∧ ((bfsOrder (link_self 1 9 cycleHeap) 1).count 1 = 1
       ∧ (bfsOrder (link_self 1 9 cycleHeap) 1).Nodup) :=
  ⟨by decide, by decide,
   bfs_self_loop_visits_once cycleHeap 1 9 (by decide) (by decide)⟩

/-- C3 (divergence exhibit): the edge-mutating operations of `NodeRef`
take no `GgToken` argument (src/main.rs lines 104-215; only
`GenerationalGraph::add` on line 69 takes one, and `main` on line 264 calls
`y1.link_outer(&x1, 2)` with no token).  In the embedding, an edge set is
mutated with no value of the `GgToken` type anywhere in the statement: the
mutation of the demo graph performed by `main` succeeds tokenlessly. -/
theorem edge_mutation_without_token :
    weight_of 1 (node_id 0) (link_outer 1 0 2 exHeap) = some 2
    ∧ weight_of 0 (node_id 1) (unlink 0 1 (link 0 1 5 exHeap)) = none := by
  constructor
  · decide
  · decide

end GenGraph
